import Mathlib

/-!
Verification of the `no-var` lint rule of deno_lint (src/rules/no_var.rs).

The rule itself (its constant code, message, documentation string, and the
overridden variable-declaration handler) is translated directly from the
source.  The surrounding engine pieces — the diagnostic `Context`, the
`ProgramRef` union, the syntax-tree shape, and the depth-first traversal
with the `noop_visit_type` pruning — are declared in this repository
outside the given source fragment, so they are modelled from the spec
(sections 2–4), as marked on each definition.
-/

set_option maxRecDepth 8192

namespace DenoLint

/-- Translated from swc ast: the discriminant of a variable declaration. -/
inductive VarDeclKind where
  | Var
  | Let
  | Const
deriving DecidableEq, Repr

/-- Modelled from the spec: `Span` — "an immutable source-position range
(start/end byte or character offset) attached to syntax nodes; carried
verbatim into diagnostics, never recomputed by the engine". -/
structure Span where
  lo : Nat
  hi : Nat
deriving DecidableEq, Repr

/-- Modelled from the spec: `Diagnostic` — "rule code, message, span". -/
structure Diagnostic where
  span : Span
  code : String
  message : String
deriving DecidableEq, Repr

/-- Modelled from the spec: the Diagnostic `Context` — "an ordered,
append-only diagnostic sink bound to one traversal run, exposing a single
mutation operation".  Missing from the source fragment (declared in
`super::Context`). -/
structure Context where
  diagnostics : List Diagnostic
deriving DecidableEq, Repr

/-- Modelled from the spec: `add_diagnostic(span, code, message)` appends a
diagnostic; never fails; not idempotent. -/
def Context.add_diagnostic (ctx : Context) (span : Span) (code message : String) : Context :=
  ⟨ctx.diagnostics ++ [⟨span, code, message⟩]⟩

/-- A fresh context, as constructed by the rule runner for each invocation. -/
def Context.empty : Context := ⟨[]⟩

/-- Modelled from the spec: the syntax-tree node shape the traversal
distinguishes — a variable-declaration node carrying its kind discriminant
and span, a node of pure type-system syntax (type alias, interface body,
type annotation — the category `noop_visit_type!` skips), and every other
node kind, into whose children the default dispatch descends. -/
inductive Node where
  | varDecl (kind : VarDeclKind) (span : Span) (children : List Node)
  | typeNode (children : List Node)
  | other (children : List Node)

/-- Modelled from the spec: the Program Representation — "a closed
two-variant union wrapping the parsed tree root (one variant per top-level
syntactic unit: Module, Script)".  Declared in `super::ProgramRef`. -/
inductive ProgramRef where
  | Module (body : List Node)
  | Script (body : List Node)

/-- Translated from the source: `const MESSAGE` of no_var.rs. -/
def MESSAGE : String := "`var` keyword is not allowed."

/-- Translated from the source: `const CODE` of no_var.rs. -/
def CODE : String := "no-var"

/-- Translated from the source: `pub struct NoVar;` — a unit struct. -/
structure NoVar

/-- Translated from the source: `fn new() -> Box<Self>`. -/
def NoVar.new : NoVar := ⟨⟩

/-- Translated from the source: `fn code(&self)` returns `CODE`. -/
def NoVar.code (_ : NoVar) : String := CODE

/-- Translated from the source: `NoVarVisitor::visit_var_decl` — if the
declaration kind is `Var`, add a diagnostic at the declaration span with
the rule code and message; the handler does not visit the node's
children. -/
def NoVarVisitor.visit_var_decl (ctx : Context) (kind : VarDeclKind) (span : Span) : Context :=
  if kind = VarDeclKind.Var then ctx.add_diagnostic span CODE MESSAGE else ctx

mutual

/-- Modelled from the spec: the Traversal Engine's depth-first pre-order
walk with NoVar's overrides installed — a total dispatch table whose
default behaviour is "visit all children, report nothing", with the
`visit_var_decl` override replacing the default at variable-declaration
nodes (so their children are not walked) and the `noop_visit_type!` filter
pruning type-only subtrees before descending. -/
def visitNode (ctx : Context) : Node → Context
  | Node.varDecl kind span _ => NoVarVisitor.visit_var_decl ctx kind span
  | Node.typeNode _ => ctx
  | Node.other cs => visitNodes ctx cs

/-- Modelled from the spec: the walk over a node's children, in sibling
(source) order. -/
def visitNodes (ctx : Context) : List Node → Context
  | [] => ctx
  | n :: ns => visitNodes (visitNode ctx n) ns

end

/-- Translated from the source: `fn lint_program` — build a visitor around
the context and dispatch on the program variant. -/
def NoVar.lint_program (_ : NoVar) (ctx : Context) (program : ProgramRef) : Context :=
  match program with
  | ProgramRef.Module m => visitNodes ctx m
  | ProgramRef.Script s => visitNodes ctx s

/-- Translated from the source: `fn docs(&self)` — the raw documentation
string of no_var.rs, verbatim. -/
def NoVar.docs (_ : NoVar) : String :=
  "Enforces the use of block scoped variables over more error prone function scoped variables. Block scoped variables are defined using `const` and `let` keywords.\n\n`const` and `let` keywords ensure the variables defined using these keywords are not accessible outside their block scope. On the other hand, variables defined using `var` keyword are only limited by their function scope.\n\n### Invalid:\n```typescript\nvar foo = \"bar\";\n```\n\n### Valid:\n```typescript\nconst foo = 1;\nlet bar = 2;\n```\n"

/-- The diagnostic the rule emits for a `var` declaration at span `s`. -/
def mkNoVarDiag (s : Span) : Diagnostic := ⟨s, CODE, MESSAGE⟩

mutual

/-- Expected spans of the diagnostics: the spans of the `Var`-kind
declarations the pruned traversal reaches, in visit order. -/
def varSpansNode : Node → List Span
  | Node.varDecl kind span _ => if kind = VarDeclKind.Var then [span] else []
  | Node.typeNode _ => []
  | Node.other cs => varSpansList cs

/-- `varSpansNode` over a child list, in sibling order. -/
def varSpansList : List Node → List Span
  | [] => []
  | n :: ns => varSpansNode n ++ varSpansList ns

end

/-- Expected spans of the diagnostics of a whole program. -/
def programVarSpans : ProgramRef → List Span
  | ProgramRef.Module m => varSpansList m
  | ProgramRef.Script s => varSpansList s

mutual

/-- Number of `Var`-kind declarations anywhere in the tree, including those
inside pruned type-only subtrees and inside other declarations. -/
def countVarNode : Node → Nat
  | Node.varDecl kind _ cs => (if kind = VarDeclKind.Var then 1 else 0) + countVarList cs
  | Node.typeNode cs => countVarList cs
  | Node.other cs => countVarList cs

/-- `countVarNode` summed over a child list. -/
def countVarList : List Node → Nat
  | [] => 0
  | n :: ns => countVarNode n + countVarList ns

end

/-- Number of `Var`-kind declarations anywhere in a program. -/
def programCountVar : ProgramRef → Nat
  | ProgramRef.Module m => countVarList m
  | ProgramRef.Script s => countVarList s

mutual

/-- Spans of all variable declarations of any kind, in full pre-order over
the whole tree (no pruning): the order in which the declarations occur in
the source when the tree is well formed. -/
def allVarSpansNode : Node → List Span
  | Node.varDecl _ span cs => span :: allVarSpansList cs
  | Node.typeNode cs => allVarSpansList cs
  | Node.other cs => allVarSpansList cs

/-- `allVarSpansNode` over a child list. -/
def allVarSpansList : List Node → List Span
  | [] => []
  | n :: ns => allVarSpansNode n ++ allVarSpansList ns

end

/-- Spans of all variable declarations of a program, in full pre-order. -/
def programAllVarSpans : ProgramRef → List Span
  | ProgramRef.Module m => allVarSpansList m
  | ProgramRef.Script s => allVarSpansList s

/-- The node of the tree at a traversal path (child indices from the root),
following only edges the pruned traversal follows: the traversal descends
only into the children of default-dispatch (`other`) nodes. -/
def nodeAt : Node → List Nat → Option Node
  | n, [] => some n
  | n, i :: p =>
    match n with
    | Node.other cs =>
      match cs.get? i with
      | some c => nodeAt c p
      | none => none
    | _ => none

/-- Reindexing of a child path when one more elder sibling is present. -/
def shiftHead : List Nat → List Nat
  | [] => []
  | j :: q => (j + 1) :: q

mutual

/-- The traversal's visit trace as paths: the list of tree positions the
walk visits, in visit order. -/
def pathsNode : Node → List (List Nat)
  | Node.varDecl _ _ _ => [[]]
  | Node.typeNode _ => [[]]
  | Node.other cs => [] :: pathsList cs

/-- Visit trace of a child list: paths into child `0`, then the paths of
the remaining siblings shifted by one. -/
def pathsList : List Node → List (List Nat)
  | [] => []
  | n :: ns => (pathsNode n).map (fun q => 0 :: q) ++ (pathsList ns).map shiftHead

end

/-- The diagnostic the rule emits at a given traversal path, if any. -/
def diagAt (n : Node) (q : List Nat) : Option Diagnostic :=
  match nodeAt n q with
  | some (Node.varDecl kind span _) =>
    if kind = VarDeclKind.Var then some (mkNoVarDiag span) else none
  | _ => none

/-- The diagnostic the rule emits at a path into a child list: the head of
the path selects the child, the tail is a path inside it. -/
def diagAtChildren (ns : List Node) (q : List Nat) : Option Diagnostic :=
  match q with
  | [] => none
  | j :: q' =>
    match ns.get? j with
    | some c => diagAt c q'
    | none => none

/-- The prose paragraphs of the documentation payload, before the example
sections. -/
def docsProse : String :=
  "Enforces the use of block scoped variables over more error prone function scoped variables. Block scoped variables are defined using `const` and `let` keywords.\n\n`const` and `let` keywords ensure the variables defined using these keywords are not accessible outside their block scope. On the other hand, variables defined using `var` keyword are only limited by their function scope.\n\n"

/-- A fenced source snippet: opening fence with a language tag, the code
body, and a closing fence. -/
def fencedSnippet (lang body : String) : String :=
  "```" ++ lang ++ "\n" ++ body ++ "```\n"

/-- Number of occurrences of a pattern in a character list. -/
def countOccurs (pat : List Char) (s : List Char) : Nat :=
  match s with
  | [] => 0
  | _ :: rest => (if pat.isPrefixOf s then 1 else 0) + countOccurs pat rest

/-- Modelled from the spec: the parse of scenario input `var foo = 0;` —
one `var` declaration spanning the whole statement, at offset 0. -/
def exampleInvalid1 : ProgramRef :=
  ProgramRef.Script [Node.varDecl VarDeclKind.Var ⟨0, 12⟩ []]

/-- Modelled from the spec: the parse of scenario input
`let foo = 0; var bar = 1; var x = 2;` — a `let` declaration at offset 0,
`var` declarations at offsets 13 and 26. -/
def exampleInvalid2 : ProgramRef :=
  ProgramRef.Script
    [Node.varDecl VarDeclKind.Let ⟨0, 12⟩ [],
     Node.varDecl VarDeclKind.Var ⟨13, 25⟩ [],
     Node.varDecl VarDeclKind.Var ⟨26, 36⟩ []]

/-- Modelled from the spec: the parse of scenario input
`let foo = 0; const bar = 1` — no `var` declaration. -/
def exampleValid : ProgramRef :=
  ProgramRef.Script
    [Node.varDecl VarDeclKind.Let ⟨0, 12⟩ [],
     Node.varDecl VarDeclKind.Const ⟨13, 27⟩ []]

/-! ### Helper lemmas -/

theorem add_diagnostic_diags (ctx : Context) (s : Span) (c m : String) :
    (ctx.add_diagnostic s c m).diagnostics = ctx.diagnostics ++ [⟨s, c, m⟩] := rfl

mutual

theorem visitNode_diags (ctx : Context) (n : Node) :
    (visitNode ctx n).diagnostics = ctx.diagnostics ++ (varSpansNode n).map mkNoVarDiag := by
  match n with
  | Node.varDecl kind span cs =>
    by_cases h : kind = VarDeclKind.Var <;>
      simp [visitNode, NoVarVisitor.visit_var_decl, varSpansNode, h,
        Context.add_diagnostic, mkNoVarDiag]
  | Node.typeNode cs => simp [visitNode, varSpansNode]
  | Node.other cs => simpa [visitNode, varSpansNode] using visitNodes_diags ctx cs

theorem visitNodes_diags (ctx : Context) (ns : List Node) :
    (visitNodes ctx ns).diagnostics = ctx.diagnostics ++ (varSpansList ns).map mkNoVarDiag := by
  match ns with
  | [] => simp [visitNodes, varSpansList]
  | n :: rest =>
    rw [visitNodes, visitNodes_diags (visitNode ctx n) rest, visitNode_diags ctx n]
    simp [varSpansList]

end

theorem lint_program_diags (r : NoVar) (ctx : Context) (p : ProgramRef) :
    (r.lint_program ctx p).diagnostics
      = ctx.diagnostics ++ (programVarSpans p).map mkNoVarDiag := by
  cases p with
  | Module m => exact visitNodes_diags ctx m
  | Script s => exact visitNodes_diags ctx s

mutual

theorem varSpansNode_length_le (n : Node) : (varSpansNode n).length ≤ countVarNode n := by
  match n with
  | Node.varDecl kind span cs =>
    by_cases h : kind = VarDeclKind.Var <;>
      simp [varSpansNode, countVarNode, h, Nat.le_add_right]
  | Node.typeNode cs => simp [varSpansNode, countVarNode]
  | Node.other cs => simpa [varSpansNode, countVarNode] using varSpansList_length_le cs

theorem varSpansList_length_le (ns : List Node) :
    (varSpansList ns).length ≤ countVarList ns := by
  match ns with
  | [] => simp [varSpansList, countVarList]
  | n :: rest =>
    have h1 := varSpansNode_length_le n
    have h2 := varSpansList_length_le rest
    simp only [varSpansList, countVarList, List.length_append]
    omega

end

theorem programVarSpans_of_countVar_zero (p : ProgramRef) (h : programCountVar p = 0) :
    programVarSpans p = [] := by
  have hle : (programVarSpans p).length ≤ programCountVar p := by
    cases p with
    | Module m => exact varSpansList_length_le m
    | Script s => exact varSpansList_length_le s
  rw [h] at hle
  exact List.eq_nil_of_length_eq_zero (Nat.le_zero.mp hle)

mutual

theorem varSpansNode_sublist (n : Node) : List.Sublist (varSpansNode n) (allVarSpansNode n) := by
  match n with
  | Node.varDecl kind span cs =>
    by_cases h : kind = VarDeclKind.Var <;>
      simp [varSpansNode, allVarSpansNode, h, List.nil_sublist,
        List.Sublist.cons, List.Sublist.cons₂]
  | Node.typeNode cs => simp [varSpansNode, allVarSpansNode, List.nil_sublist]
  | Node.other cs => simpa [varSpansNode, allVarSpansNode] using varSpansList_sublist cs

theorem varSpansList_sublist (ns : List Node) : List.Sublist (varSpansList ns) (allVarSpansList ns) := by
  match ns with
  | [] => simp [varSpansList, allVarSpansList]
  | n :: rest =>
    have h1 := varSpansNode_sublist n
    have h2 := varSpansList_sublist rest
    simpa [varSpansList, allVarSpansList] using List.Sublist.append h1 h2

end

theorem programVarSpans_sublist (p : ProgramRef) :
    List.Sublist (programVarSpans p) (programAllVarSpans p) := by
  cases p with
  | Module m => exact varSpansList_sublist m
  | Script s => exact varSpansList_sublist s

/-! ### Lemmas about the visit trace (paths) -/

theorem pathsList_shape (ns : List Node) (q : List Nat) (h : q ∈ pathsList ns) :
    ∃ j q', q = j :: q' := by
  induction ns generalizing q with
  | nil => simp [pathsList] at h
  | cons n rest ih =>
    simp only [pathsList, List.mem_append, List.mem_map] at h
    rcases h with ⟨a, _, rfl⟩ | ⟨a, ha, rfl⟩
    · exact ⟨0, a, rfl⟩
    · obtain ⟨j, q', rfl⟩ := ih a ha
      exact ⟨j + 1, q', rfl⟩

theorem mem_pathsList_iff (ns : List Node) (q : List Nat) :
    q ∈ pathsList ns
      ↔ ∃ j q' c, q = j :: q' ∧ ns.get? j = some c ∧ q' ∈ pathsNode c := by
  induction ns generalizing q with
  | nil => simp [pathsList]
  | cons n rest ih =>
    simp only [pathsList, List.mem_append, List.mem_map]
    constructor
    · rintro (⟨a, ha, rfl⟩ | ⟨a, ha, rfl⟩)
      · exact ⟨0, a, n, rfl, rfl, ha⟩
      · obtain ⟨j, q', c, rfl, hg, hm⟩ := (ih a).mp ha
        exact ⟨j + 1, q', c, by simp [shiftHead], by simpa using hg, hm⟩
    · rintro ⟨j, q', c, rfl, hg, hm⟩
      cases j with
      | zero =>
        rw [List.get?_cons_zero, Option.some.injEq] at hg
        subst hg
        exact Or.inl ⟨q', hm, rfl⟩
      | succ j =>
        rw [List.get?_cons_succ] at hg
        refine Or.inr ⟨j :: q', (ih (j :: q')).mpr ⟨j, q', c, rfl, hg, hm⟩, ?_⟩
        simp [shiftHead]

theorem mem_pathsNode_iff (q : List Nat) (n : Node) :
    q ∈ pathsNode n ↔ (nodeAt n q).isSome := by
  induction q generalizing n with
  | nil => cases n <;> simp [pathsNode, nodeAt]
  | cons i p ih =>
    cases n with
    | varDecl kind span cs => simp [pathsNode, nodeAt]
    | typeNode cs => simp [pathsNode, nodeAt]
    | other cs =>
      rw [pathsNode, List.mem_cons, mem_pathsList_iff, nodeAt]
      constructor
      · rintro (h | ⟨j, q', c, heq, hg, hm⟩)
        · exact absurd h (by simp)
        · obtain ⟨rfl, rfl⟩ : i = j ∧ p = q' := by
            injection heq with h1 h2; exact ⟨h1, h2⟩
          rw [hg]
          exact (ih c).mp hm
      · intro h
        cases hg : cs.get? i with
        | none => rw [hg] at h; simp at h
        | some c =>
          rw [hg] at h
          exact Or.inr ⟨i, p, c, rfl, hg, (ih c).mpr h⟩

mutual

theorem pathsNode_nodup (n : Node) : (pathsNode n).Nodup := by
  match n with
  | Node.varDecl kind span cs => simp [pathsNode]
  | Node.typeNode cs => simp [pathsNode]
  | Node.other cs =>
    rw [pathsNode, List.nodup_cons]
    refine ⟨fun h => ?_, pathsList_nodup cs⟩
    obtain ⟨j, q', hq⟩ := pathsList_shape cs [] h
    exact List.noConfusion hq

theorem pathsList_nodup (ns : List Node) : (pathsList ns).Nodup := by
  match ns with
  | [] => simp [pathsList]
  | n :: rest =>
    rw [pathsList]
    have h1 : ((pathsNode n).map (fun q => 0 :: q)).Nodup :=
      (pathsNode_nodup n).map (fun a b hab => by injection hab)
    have h2 : ((pathsList rest).map shiftHead).Nodup := by
      refine List.Nodup.map_on ?_ (pathsList_nodup rest)
      intro a ha b hb hab
      obtain ⟨j, q', rfl⟩ := pathsList_shape rest a ha
      obtain ⟨k, r', rfl⟩ := pathsList_shape rest b hb
      simp only [shiftHead, List.cons.injEq] at hab
      obtain ⟨h, rfl⟩ := hab
      have : j = k := by omega
      rw [this]
    refine h1.append h2 ?_
    intro x hx hy
    simp only [List.mem_map] at hx hy
    obtain ⟨a, _, rfl⟩ := hx
    obtain ⟨b, hb, hs⟩ := hy
    obtain ⟨k, r', rfl⟩ := pathsList_shape rest b hb
    simp [shiftHead] at hs

end

theorem diagAt_other (cs : List Node) (j : Nat) (q : List Nat) :
    diagAt (Node.other cs) (j :: q) = diagAtChildren cs (j :: q) := by
  cases hg : cs.get? j with
  | none => simp only [diagAt, nodeAt, diagAtChildren, hg]
  | some c => simp only [diagAt, nodeAt, diagAtChildren, hg]

mutual

theorem pathsNode_filterMap_diagAt (n : Node) :
    (pathsNode n).filterMap (diagAt n) = (varSpansNode n).map mkNoVarDiag := by
  match n with
  | Node.varDecl kind span cs =>
    by_cases h : kind = VarDeclKind.Var <;>
      simp [pathsNode, varSpansNode, diagAt, nodeAt, h, List.filterMap_cons]
  | Node.typeNode cs => simp [pathsNode, varSpansNode, diagAt, nodeAt, List.filterMap_cons]
  | Node.other cs =>
    rw [pathsNode, varSpansNode, List.filterMap_cons]
    have h0 : diagAt (Node.other cs) [] = none := by rw [diagAt, nodeAt]
    rw [h0]
    rw [List.filterMap_congr (fun q hq => ?_)]
    · exact pathsList_filterMap_diagAt cs
    · obtain ⟨j, q', rfl⟩ := pathsList_shape cs q hq
      exact diagAt_other cs j q'

theorem pathsList_filterMap_diagAt (ns : List Node) :
    (pathsList ns).filterMap (diagAtChildren ns) = (varSpansList ns).map mkNoVarDiag := by
  match ns with
  | [] => simp [pathsList, varSpansList]
  | n :: rest =>
    rw [pathsList, varSpansList, List.filterMap_append, List.map_append]
    congr 1
    · rw [List.filterMap_map]
      rw [List.filterMap_congr (fun q _ => ?_)]
      · exact pathsNode_filterMap_diagAt n
      · show diagAtChildren (n :: rest) (0 :: q) = diagAt n q
        rw [diagAtChildren, List.get?_cons_zero]
    · rw [List.filterMap_map]
      rw [List.filterMap_congr (fun q hq => ?_)]
      · exact pathsList_filterMap_diagAt rest
      · obtain ⟨j, q', rfl⟩ := pathsList_shape rest q hq
        show diagAtChildren (n :: rest) (shiftHead (j :: q')) = diagAtChildren rest (j :: q')
        rw [shiftHead, diagAtChildren, List.get?_cons_succ, diagAtChildren]

end

/-! ### Claim theorems -/

/-- Claim C1: every `Var`-kind declaration the traversal reaches at source
position `p` yields exactly one diagnostic with code `no-var` and span
start `p` — the diagnostic sequence is exactly one diagnostic per reached
`Var` span, in order, so `Let` and `Const` declarations never produce a
diagnostic at any nesting depth — and a program with zero `var`
declarations anywhere yields an empty diagnostic sequence. -/
theorem noVar_diagnostic_characterization (ctx : Context) (p : ProgramRef) :
    (NoVar.new.lint_program ctx p).diagnostics
        = ctx.diagnostics ++ (programVarSpans p).map mkNoVarDiag
      ∧ (programCountVar p = 0 →
          (NoVar.new.lint_program Context.empty p).diagnostics = []) := by
  refine ⟨lint_program_diags NoVar.new ctx p, fun h => ?_⟩
  rw [lint_program_diags, programVarSpans_of_countVar_zero p h]
  rfl

/-- Witness for C1 at the scenario inputs: the `var`-free program yields
no diagnostics, and the one-`var` program yields its one diagnostic. -/
theorem noVar_diagnostic_characterization_witness :
    (NoVar.new.lint_program Context.empty exampleValid).diagnostics = []
      ∧ (NoVar.new.lint_program Context.empty exampleInvalid1).diagnostics
          = [mkNoVarDiag ⟨0, 12⟩] := by
  refine ⟨(noVar_diagnostic_characterization Context.empty exampleValid).2 (by decide), ?_⟩
  rw [(noVar_diagnostic_characterization Context.empty exampleInvalid1).1]
  decide

/-- Claim C2: on the literal scenario inputs, the rule produces exactly the
stated diagnostics: `var foo = 0;` one diagnostic at column 0 with the
message; `let foo = 0; var bar = 1; var x = 2;` exactly two diagnostics at
columns 13 and 26 in that order; `let foo = 0; const bar = 1` none. -/
theorem noVar_scenario_diagnostics :
    (NoVar.new.lint_program Context.empty exampleInvalid1).diagnostics
        = [⟨⟨0, 12⟩, "no-var", "`var` keyword is not allowed."⟩]
      ∧ (NoVar.new.lint_program Context.empty exampleInvalid2).diagnostics
          = [⟨⟨13, 25⟩, "no-var", "`var` keyword is not allowed."⟩,
             ⟨⟨26, 36⟩, "no-var", "`var` keyword is not allowed."⟩]
      ∧ (NoVar.new.lint_program Context.empty exampleValid).diagnostics = [] :=
  ⟨by decide, by decide, by decide⟩

/-- Claim C3: when the program's declarations occur in source order (its
full pre-order sequence of declaration span starts is non-decreasing, as
for any tree produced by the parser), the diagnostic sequence is
non-decreasing by span start. -/
theorem noVar_diagnostics_sorted (p : ProgramRef)
    (h : (programAllVarSpans p).Pairwise (fun a b => a.lo ≤ b.lo)) :
    ((NoVar.new.lint_program Context.empty p).diagnostics).Pairwise
      (fun d e => d.span.lo ≤ e.span.lo) := by
  rw [lint_program_diags]
  have : (Context.empty).diagnostics = [] := rfl
  rw [this, List.nil_append, List.pairwise_map]
  exact h.sublist (programVarSpans_sublist p)

/-- Witness for C3 at the two-`var` scenario input. -/
theorem noVar_diagnostics_sorted_witness :
    ((NoVar.new.lint_program Context.empty exampleInvalid2).diagnostics).Pairwise
      (fun d e => d.span.lo ≤ e.span.lo) :=
  noVar_diagnostics_sorted exampleInvalid2 (by decide)

/-- Claim C4: lint_program is deterministic — two invocations on the same
program tree, each with its own fresh context carrying the same diagnostic
list, produce identical diagnostic sequences. -/
theorem lint_program_deterministic (r₁ r₂ : NoVar) (c₁ c₂ : Context) (p : ProgramRef)
    (h : c₁.diagnostics = c₂.diagnostics) :
    (r₁.lint_program c₁ p).diagnostics = (r₂.lint_program c₂ p).diagnostics := by
  cases r₁; cases r₂; cases c₁; cases c₂
  cases h
  rfl

/-- Witness for C4: two separate invocations on the first scenario input
with fresh contexts agree. -/
theorem lint_program_deterministic_witness :
    (NoVar.new.lint_program Context.empty exampleInvalid1).diagnostics
      = (NoVar.new.lint_program ⟨[]⟩ exampleInvalid1).diagnostics :=
  lint_program_deterministic NoVar.new NoVar.new Context.empty ⟨[]⟩ exampleInvalid1 rfl

/-- Claim C5: the traversal prunes type-only subtrees before descending —
visiting a type-system node leaves the context unchanged whatever the
subtree holds, so a declaration-shaped node inside such a subtree never
produces a diagnostic. -/
theorem type_subtrees_pruned (ctx : Context) (cs : List Node) :
    visitNode ctx (Node.typeNode cs) = ctx
      ∧ ∀ (kind : VarDeclKind) (span : Span) (ds : List Node),
          (NoVar.new.lint_program ctx
              (ProgramRef.Module [Node.typeNode (Node.varDecl kind span ds :: cs)])).diagnostics
            = ctx.diagnostics :=
  ⟨rfl, fun _ _ _ => rfl⟩

/-- Claim C6: lint_program is total — on every tree it terminates with a
result that only extends the supplied diagnostics (no failure branch), the
traversal's visit trace contains exactly the reachable tree positions,
each exactly once, and the emitted diagnostics are the trace's emissions
in visit order. -/
theorem lint_program_total_and_visits_once :
    (∀ (ctx : Context) (p : ProgramRef), ∃ ds : List Diagnostic,
        (NoVar.new.lint_program ctx p).diagnostics = ctx.diagnostics ++ ds)
      ∧ (∀ n : Node, (pathsNode n).Nodup)
      ∧ (∀ (n : Node) (q : List Nat), q ∈ pathsNode n ↔ (nodeAt n q).isSome)
      ∧ (∀ (ctx : Context) (n : Node),
          (visitNode ctx n).diagnostics
            = ctx.diagnostics ++ (pathsNode n).filterMap (diagAt n)) := by
  refine ⟨fun ctx p => ⟨(programVarSpans p).map mkNoVarDiag, lint_program_diags NoVar.new ctx p⟩,
    pathsNode_nodup, fun n q => mem_pathsNode_iff q n, fun ctx n => ?_⟩
  rw [visitNode_diags, pathsNode_filterMap_diagAt]

/-- Claim C7: docs() returns a constant string of the fixed shape: prose,
then the "Invalid" example section, then the "Valid" example section, in
that order, each section holding exactly one fenced snippet and the prose
holding none. -/
theorem docs_structure :
    NoVar.new.docs
        = docsProse ++ "### Invalid:\n"
          ++ fencedSnippet "typescript" "var foo = \"bar\";\n"
          ++ "\n### Valid:\n"
          ++ fencedSnippet "typescript" "const foo = 1;\nlet bar = 2;\n"
      ∧ 0 < docsProse.length
      ∧ countOccurs ("```".toList) (docsProse.toList) = 0
      ∧ countOccurs ("###".toList) (docsProse.toList) = 0
      ∧ countOccurs ("```".toList)
          ((fencedSnippet "typescript" "var foo = \"bar\";\n").toList) = 2
      ∧ countOccurs ("```".toList)
          ((fencedSnippet "typescript" "const foo = 1;\nlet bar = 2;\n").toList) = 2 :=
  ⟨rfl, by decide, by decide, by decide, by decide, by decide⟩

/-- Claim C8: the overridden variable-declaration handler does not descend
into the node's children — the visit result is independent of the
children, so declarations nested inside a declaration's initializer are
never visited and never reported; the node itself yields its single
diagnostic exactly when its kind is `Var`. -/
theorem visit_var_decl_no_descent (ctx : Context) (kind : VarDeclKind) (span : Span)
    (cs : List Node) :
    visitNode ctx (Node.varDecl kind span cs) = visitNode ctx (Node.varDecl kind span [])
      ∧ (visitNode ctx (Node.varDecl kind span cs)).diagnostics
          = ctx.diagnostics ++ (if kind = VarDeclKind.Var then [mkNoVarDiag span] else [])
      ∧ ∀ s₂ : Span,
          (NoVar.new.lint_program Context.empty
              (ProgramRef.Module
                [Node.varDecl VarDeclKind.Var span [Node.varDecl VarDeclKind.Var s₂ []]])).diagnostics
            = [mkNoVarDiag span] := by
  refine ⟨rfl, ?_, fun s₂ => ?_⟩
  · by_cases h : kind = VarDeclKind.Var <;>
      simp [visitNode, NoVarVisitor.visit_var_decl, h, Context.add_diagnostic, mkNoVarDiag]
  · rfl

/-- Claim C9: code() constantly returns "no-var", and every diagnostic
lint_program adds to the context carries exactly that code and the
constant message — the reported code always equals code()'s value. -/
theorem code_and_diagnostic_consistency :
    NoVar.new.code = "no-var"
      ∧ ∀ (ctx : Context) (p : ProgramRef) (d : Diagnostic),
          d ∈ (NoVar.new.lint_program ctx p).diagnostics →
          d ∈ ctx.diagnostics ∨ (d.code = NoVar.new.code ∧ d.message = MESSAGE) := by
  refine ⟨rfl, fun ctx p d hd => ?_⟩
  rw [lint_program_diags] at hd
  rcases List.mem_append.mp hd with h | h
  · exact Or.inl h
  · obtain ⟨s, _, rfl⟩ := List.mem_map.mp h
    exact Or.inr ⟨rfl, rfl⟩

/-- Witness for C9: the diagnostic produced on the first scenario input
carries the rule's code and message. -/
theorem code_and_diagnostic_consistency_witness :
    (mkNoVarDiag ⟨0, 12⟩).code = NoVar.new.code
      ∧ (mkNoVarDiag ⟨0, 12⟩).message = MESSAGE := by
  have hmem : mkNoVarDiag ⟨0, 12⟩
      ∈ (NoVar.new.lint_program Context.empty exampleInvalid1).diagnostics := by decide
  rcases code_and_diagnostic_consistency.2 Context.empty exampleInvalid1 _ hmem with h | h
  · exact absurd h (by decide)
  · exact h

/-- Claim C10: frame property — the rule instance is stateless (any two
NoVar values are equal, new() being one of them), and lint_program's only
effect is appending a batch of diagnostics, determined by the program
alone, to the supplied context's diagnostic list. -/
theorem lint_program_frame :
    (∀ r₁ r₂ : NoVar, r₁ = r₂)
      ∧ ∀ p : ProgramRef, ∃ ds : List Diagnostic, ∀ (r : NoVar) (ctx : Context),
          (r.lint_program ctx p).diagnostics = ctx.diagnostics ++ ds :=
  ⟨fun r₁ r₂ => by cases r₁; cases r₂; rfl,
    fun p => ⟨(programVarSpans p).map mkNoVarDiag, fun r ctx => lint_program_diags r ctx p⟩⟩

end DenoLint
